import Mathlib

/-!
Formal model of `make_break.py` (MakeBreak): a persistent breakpoint store
for lldb.  Filesystem paths are POSIX strings; the path functions below are
character-level translations of the `os.path` routines the script calls
(`normpath`, `abspath`, `join`, `split`, `splitext`).  Values stored in
breakpoint lists are modelled by `PyVal` (the script is dynamically typed:
the command line delivers strings, the spec speaks of integers).  The JSON
configuration document is modelled by `Jval`; Python's `json` module is the
standard-library boundary, so serialization is modelled at the JSON-value
level.  `Option` results model uncaught Python exceptions (`none` = crash).
-/

/-- Python `str.split('/')` on a list of characters. -/
def splitSlash : List Char → List (List Char)
  | [] => [[]]
  | c :: rest =>
    if c = '/' then [] :: splitSlash rest
    else
      match splitSlash rest with
      | [] => [[c]]
      | h :: t => (c :: h) :: t

/-- Python `'/'.join` on a list of pieces. -/
def joinSlash : List (List Char) → List Char
  | [] => []
  | [p] => p
  | p :: q :: rest => p ++ '/' :: joinSlash (q :: rest)

/-- `os.path.split(p)[1]` (= `os.path.basename p`): everything after the last
slash. -/
def basenameChars (l : List Char) : List Char := (splitSlash l).getLastD []

/-- Python `path.startswith('/')`, the POSIX `isabs`. -/
def isAbsChars (l : List Char) : Bool := l.head? == some '/'

/-- The number of initial slashes kept by `posixpath.normpath` (0, 1 or 2:
a path starting `//` but not `///` keeps two). -/
def slashCount (l : List Char) : Nat :=
  if isAbsChars l = true then
    if l.take 2 = ['/', '/'] ∧ l.take 3 ≠ ['/', '/', '/'] then 2 else 1
  else 0

/-- One step of `posixpath.normpath`'s component loop: skip empty and `.`
components; append anything that is not `..` (or a `..` kept on a relative
path with an empty or `..`-ended stack); otherwise pop. -/
def normStep (slashes : Nat) (acc : List (List Char)) (comp : List Char) :
    List (List Char) :=
  if comp = [] ∨ comp = ['.'] then acc
  else if comp ≠ ['.', '.'] ∨ (slashes = 0 ∧ acc = []) ∨
      (acc ≠ [] ∧ acc.getLastD [] = ['.', '.']) then acc ++ [comp]
  else if acc ≠ [] then acc.dropLast
  else acc

/-- A path component as it appears in `normpath` output: nonempty, not `.`,
not `..`, and slash-free. -/
def goodComp (c : List Char) : Prop :=
  c ≠ [] ∧ c ≠ ['.'] ∧ c ≠ ['.', '.'] ∧ '/' ∉ c

/-- `posixpath.normpath` on characters. -/
def normChars (p : List Char) : List Char :=
  if p = [] then ['.']
  else
    let slashes := slashCount p
    let newComps := (splitSlash p).foldl (normStep slashes) []
    let res := List.replicate slashes '/' ++ joinSlash newComps
    if res = [] then ['.'] else res

/-- Two-argument `posixpath.join`. -/
def joinChars (a b : List Char) : List Char :=
  if isAbsChars b then b
  else if a = [] ∨ a.getLastD ' ' = '/' then a ++ b
  else a ++ '/' :: b

/-- `posixpath.abspath` with the current working directory made explicit. -/
def abspathChars (cwd p : List Char) : List Char :=
  if isAbsChars p then normChars p else normChars (joinChars cwd p)

/-- `canon_path` from the source: `os.path.abspath(os.path.normpath(f))`. -/
def canonChars (cwd p : List Char) : List Char := abspathChars cwd (normChars p)

/-- String-level `canon_path`. -/
def canon_path (cwd f : String) : String := ⟨canonChars cwd.data f.data⟩

/-- String-level basename, as used on source files and in `print`'s header. -/
def basenameStr (p : String) : String := ⟨basenameChars p.data⟩

/-- Index of the last `'.'` in a list of characters, if any. -/
def lastDot : List Char → Option Nat
  | [] => none
  | c :: rest =>
    match lastDot rest with
    | some i => some (i + 1)
    | none => if c = '.' then some 0 else none

/-- Root part of `posixpath.splitext` applied to a basename: cut at the last
dot unless every character before it is itself a dot. -/
def splitextRoot (b : List Char) : List Char :=
  match lastDot b with
  | none => b
  | some i => if (b.take i).any (fun c => c != '.') then b.take i else b

/-- `raw_name` from the source: basename without extension. -/
def raw_name (p : String) : String := ⟨splitextRoot (basenameChars p.data)⟩

/-- String-level two-argument `os.path.join`. -/
def joinStr (a b : String) : String := ⟨joinChars a.data b.data⟩

/-- A Python value that can appear in a breakpoint list: the command line only
ever delivers strings; integers are what the spec's data model asserts. -/
inductive PyVal where
  | int : Int → PyVal
  | str : String → PyVal
deriving DecidableEq

/-- Python `"{}".format(v)` on a stored line value. -/
def pyFormat : PyVal → String
  | .int n => toString n
  | .str s => s

/-- Whether a stored value is an integer. -/
def PyVal.isInt : PyVal → Bool
  | .int _ => true
  | .str _ => false

/-- Breakpoint table of one executable: source basename, in insertion order,
to its list of lines (the value of the `"Breakpoints"` field). -/
abbrev Breakpoints := List (String × List PyVal)

/-- The configuration store `_data`.  The `LASTUSED` sibling key of the JSON
document is modelled as the separate `lastUsed` field (the spec's data
model); entries keep Python's dict insertion order. -/
structure StoreData where
  entries : List (String × Breakpoints)
  lastUsed : Option String
deriving DecidableEq

/-- Python `d[k] = v` on an insertion-ordered dictionary: replace in place
when the key is present, otherwise append at the end. -/
def alistInsert {β : Type} (l : List (String × β)) (k : String) (v : β) :
    List (String × β) :=
  if (l.lookup k).isSome then l.map (fun kv => if kv.1 == k then (kv.1, v) else kv)
  else l ++ [(k, v)]

/-- The live breakpoint list `_data[e]["Breakpoints"][sf]`, if present. -/
def getLines? (s : StoreData) (e sf : String) : Option (List PyVal) :=
  (s.entries.lookup e).bind fun bps => bps.lookup sf

/-- `get_last_used`. -/
def get_last_used (s : StoreData) : Option String := s.lastUsed

/-- `set_last_used`: canonicalize the argument and remember it. -/
def set_last_used (cwd : String) (s : StoreData) (e : String) : StoreData :=
  { s with lastUsed := some (canon_path cwd e) }

/-- `add_executable`: canonicalize, set last used, insert an empty entry when
the key is new. -/
def add_executable (cwd : String) (s : StoreData) (f : String) : StoreData :=
  let f' := canon_path cwd f
  let s' := set_last_used cwd s f'
  if (s'.entries.lookup f').isSome then s'
  else { s' with entries := s'.entries ++ [(f', [])] }

/-- Resolution of the optional `-x` executable inside `toggle_breakpoint`: an
explicit executable is canonicalized, otherwise the raw last-used value. -/
def resolveExec (cwd : String) (s : StoreData) (exe : Option String) : Option String :=
  match exe with
  | none => s.lastUsed
  | some e0 => some (canon_path cwd e0)

/-- Body of `toggle_breakpoint` once the executable has been resolved to `e`:
`add_executable`, then `try`-lookup of the list and toggle of `line`.
`none` models the uncaught `KeyError` raised inside the `except` handler
when the re-canonicalized key differs from `e` and `e` is absent. -/
def toggleAt (cwd : String) (s : StoreData) (e sf : String) (line : PyVal) :
    Option StoreData :=
  let s1 := add_executable cwd s e
  match s1.entries.lookup e with
  | none => none
  | some bps =>
    match bps.lookup sf with
    | none => some { s1 with entries := alistInsert s1.entries e (alistInsert bps sf [line]) }
    | some lines =>
      let newLines := if line ∈ lines then lines.erase line else lines ++ [line]
      some { s1 with entries := alistInsert s1.entries e (alistInsert bps sf newLines) }

/-- `toggle_breakpoint`: reduce the source file to its basename, resolve the
executable (canonicalizing and updating last-used only when explicit), then
toggle.  `none` models an uncaught Python exception (no resolvable
executable, i.e. `canon_path(None)`). -/
def toggle_breakpoint (cwd : String) (s : StoreData) (executable : Option String)
    (source_file : String) (line : PyVal) : Option StoreData :=
  let sf := basenameStr source_file
  match executable with
  | none =>
    match s.lastUsed with
    | none => none
    | some e => toggleAt cwd s e sf line
  | some e0 =>
    let e := canon_path cwd e0
    toggleAt cwd (set_last_used cwd s e) e sf line

/-- Inner loop of `clean_breakpoints`: `for line_ in reversed(lines)` over the
live list, one `toggle_breakpoint` per element read; the `Nat` argument is
the reversed iterator's next index plus one, so a read at an index at or
past the current length is the iterator's `StopIteration`. -/
def revLoop (cwd e sf : String) : Nat → StoreData → Option StoreData
  | 0, s => some s
  | i + 1, s =>
    match getLines? s e sf with
    | none => none
    | some lines =>
      match lines[i]? with
      | none => some s
      | some x =>
        match toggle_breakpoint cwd s (some e) sf x with
        | none => none
        | some s' => revLoop cwd e sf i s'

/-- Outer loop of `clean_breakpoints` over the source files recorded for `e`
(the keys of its `Breakpoints` dict, which the toggles never change). -/
def cleanOuter (cwd e : String) : List String → StoreData → Option StoreData
  | [], s => some s
  | sf :: rest, s =>
    match getLines? s e sf with
    | none => none
    | some lines =>
      match revLoop cwd e sf lines.length s with
      | none => none
      | some s' => cleanOuter cwd e rest s'

/-- `clean_breakpoints`: resolve the executable (without canonicalizing), then
re-toggle every recorded breakpoint in reverse order.  `none` models the
fatal `KeyError` on an executable that is not a key of the store. -/
def clean_breakpoints (cwd : String) (s : StoreData) (executable : Option String) :
    Option StoreData :=
  match (match executable with | none => s.lastUsed | some e => some e) with
  | none => none
  | some e =>
    match s.entries.lookup e with
    | none => none
    | some bps => cleanOuter cwd e (bps.map Prod.fst) s

/-- `print_breakpoints`, as the list of printed lines; `none` models the crash
on an unresolvable executable.  An executable that is not a key prints only
the two header lines (the `except KeyError: pass`). -/
def print_breakpoints (s : StoreData) (executable : Option String) :
    Option (List String) :=
  match (match executable with | none => s.lastUsed | some e => some e) with
  | none => none
  | some e =>
    let execStr := "Executable: " ++ basenameStr e
    let header := [execStr, String.mk (List.replicate execStr.length '-')]
    match s.entries.lookup e with
    | none => some header
    | some bps =>
      some (header ++ bps.flatMap fun kv => kv.2.map fun l => kv.1 ++ ":" ++ pyFormat l)

/-- The command lines of one generated lldb script. -/
def exportLines (path : String) (bps : Breakpoints) : List String :=
  ("file " ++ path) ::
    bps.flatMap fun kv => kv.2.map fun l =>
      "breakpoint set --file " ++ kv.1 ++ " --line " ++ pyFormat l

/-- Python `"\n".join`. -/
def joinNL : List String → String
  | [] => ""
  | [a] => a
  | a :: b :: rest => a ++ "\n" ++ joinNL (b :: rest)

/-- `export_commands`: the `(script filename, script content)` pairs written,
for the entry keys whose path exists on disk (`isfile`).  In the JSON
document the `LASTUSED` sibling key is iterated too, but it never names an
existing file in the modelled runs and is skipped by the `isfile` guard. -/
def export_commands (isfile : String → Bool) (dbg_directory : String) (s : StoreData) :
    List (String × String) :=
  (s.entries.filter fun kv => isfile kv.1).map fun kv =>
    (joinStr dbg_directory (raw_name kv.1 ++ ".lldb"), joinNL (exportLines kv.1 kv.2))

/-- A JSON value, as produced by Python's `json` module on this data. -/
inductive Jval where
  | num : Int → Jval
  | str : String → Jval
  | arr : List Jval → Jval
  | obj : List (String × Jval) → Jval

/-- JSON encoding of a stored line value. -/
def encodePy : PyVal → Jval
  | .int n => .num n
  | .str s => .str s

/-- JSON decoding of a stored line value. -/
def decodePy : Jval → Option PyVal
  | .num n => some (.int n)
  | .str s => some (.str s)
  | _ => none

/-- JSON encoding of one breakpoint-line list. -/
def encodeLines (ls : List PyVal) : Jval := .arr (ls.map encodePy)

/-- JSON decoding of one breakpoint-line list. -/
def decodeLines : Jval → Option (List PyVal)
  | .arr l => l.mapM decodePy
  | _ => none

/-- JSON encoding of one executable's breakpoint table. -/
def encodeBps (bps : Breakpoints) : Jval :=
  .obj (bps.map fun kv => (kv.1, encodeLines kv.2))

/-- JSON decoding of the fields of a breakpoint table. -/
def decodeBpsFields : List (String × Jval) → Option Breakpoints
  | [] => some []
  | (k, v) :: rest =>
    match decodeLines v with
    | none => none
    | some ls =>
      match decodeBpsFields rest with
      | none => none
      | some bps => some ((k, ls) :: bps)

/-- JSON decoding of one executable's breakpoint table. -/
def decodeBps : Jval → Option Breakpoints
  | .obj fs => decodeBpsFields fs
  | _ => none

/-- JSON encoding of one executable entry, `{"Breakpoints": {...}}`. -/
def encodeEntry (bps : Breakpoints) : Jval := .obj [("Breakpoints", encodeBps bps)]

/-- JSON decoding of one executable entry. -/
def decodeEntry : Jval → Option Breakpoints
  | .obj [("Breakpoints", b)] => decodeBps b
  | _ => none

/-- The JSON document `save` writes: the executable entries in order, with the
`LASTUSED` sibling key appended when set. -/
def encodeStore (s : StoreData) : Jval :=
  .obj ((s.entries.map fun kv => (kv.1, encodeEntry kv.2)) ++
    (match s.lastUsed with | some l => [("LASTUSED", Jval.str l)] | none => []))

/-- Field-by-field reconstruction of the store from a parsed JSON object. -/
def decodeFields : List (String × Jval) → StoreData → Option StoreData
  | [], acc => some acc
  | (k, v) :: rest, acc =>
    if k = "LASTUSED" then
      match v with
      | .str l => decodeFields rest { acc with lastUsed := some l }
      | _ => none
    else
      match decodeEntry v with
      | none => none
      | some bps => decodeFields rest { acc with entries := acc.entries ++ [(k, bps)] }

/-- The store `load` reconstructs from a JSON document. -/
def decodeStore : Jval → Option StoreData
  | .obj fs => decodeFields fs ⟨[], none⟩
  | _ => none

/-- `save`, as the JSON document written to `config.json`. -/
def save (s : StoreData) : Jval := encodeStore s

/-- `load` of a parsed JSON document. -/
def load (j : Jval) : Option StoreData := decodeStore j

/-- The `break` sub-command path: argparse delivers `LINE` as a string, which
is passed to `toggle_breakpoint` unconverted. -/
def cli_break (cwd : String) (s : StoreData) (exe : Option String)
    (source line : String) : Option StoreData :=
  toggle_breakpoint cwd s exe source (PyVal.str line)

/-- The toggled breakpoint list: a fresh `[line]` when no list exists,
otherwise remove a present line (first occurrence) or append an absent one. -/
def toggleLines (o : Option (List PyVal)) (line : PyVal) : List PyVal :=
  match o with
  | none => [line]
  | some lines => if line ∈ lines then lines.erase line else lines ++ [line]

/-- Closed form of a successful `toggle_breakpoint` at an already-canonical
resolved executable `e` and source basename `sf` (derived; proved equal to
the faithful `toggle_breakpoint` in `toggle_eq`). -/
def toggleCore (s : StoreData) (e sf : String) (line : PyVal) : StoreData :=
  let ent1 := if (s.entries.lookup e).isSome = true then s.entries
    else s.entries ++ [(e, [])]
  let bps := (ent1.lookup e).getD []
  { entries := alistInsert ent1 e (alistInsert bps sf (toggleLines (getLines? s e sf) line)),
    lastUsed := some e }

/-- Invariant: every executable key of `entries` is a fixed point of
canonicalization. -/
def canonicalKeys (cwd : String) (s : StoreData) : Prop :=
  ∀ k ∈ s.entries.map Prod.fst, canon_path cwd k = k

/-! ### Path lemmas: `canon_path` produces absolute, normalized paths and is
idempotent (needed because the source re-canonicalizes already-canonical
keys before dictionary lookups). -/

theorem splitSlash_ne_nil (l : List Char) : splitSlash l ≠ [] := by
  induction l with
  | nil => simp [splitSlash]
  | cons c rest ih =>
    simp only [splitSlash]
    split
    · simp
    · split <;> simp

theorem not_slash_mem_splitSlash {l p : List Char} (hp : p ∈ splitSlash l) : '/' ∉ p := by
  induction l generalizing p with
  | nil =>
    simp only [splitSlash, List.mem_singleton] at hp
    subst hp; simp
  | cons c rest ih =>
    simp only [splitSlash] at hp
    by_cases hc : c = '/'
    · rw [if_pos hc] at hp
      rcases List.mem_cons.mp hp with h | h
      · subst h; simp
      · exact ih h
    · rw [if_neg hc] at hp
      cases hsp : splitSlash rest with
      | nil => exact absurd hsp (splitSlash_ne_nil rest)
      | cons hd tl =>
        rw [hsp] at hp
        rcases List.mem_cons.mp hp with h | h
        · subst h
          intro hmem
          rcases List.mem_cons.mp hmem with h1 | h1
          · exact hc h1.symm
          · exact ih (hsp ▸ List.mem_cons_self hd tl) h1
        · exact ih (hsp ▸ List.mem_cons_of_mem hd h)

theorem splitSlash_eq_self {l : List Char} (h : '/' ∉ l) : splitSlash l = [l] := by
  induction l with
  | nil => rfl
  | cons c rest ih =>
    have hc : ¬ c = '/' := fun e => h (e ▸ List.mem_cons_self c rest)
    have hr := ih (fun hm => h (List.mem_cons_of_mem c hm))
    simp only [splitSlash, if_neg hc, hr]

theorem splitSlash_append {a : List Char} (b : List Char) (ha : '/' ∉ a) :
    splitSlash (a ++ '/' :: b) = a :: splitSlash b := by
  induction a with
  | nil => simp [splitSlash]
  | cons c rest ih =>
    have hc : ¬ c = '/' := fun e => ha (e ▸ List.mem_cons_self c rest)
    have hr := ih (fun hm => ha (List.mem_cons_of_mem c hm))
    simp only [List.cons_append, splitSlash, if_neg hc, List.append_eq, hr]

theorem splitSlash_joinSlash {ps : List (List Char)} (h : ∀ p ∈ ps, '/' ∉ p)
    (hne : ps ≠ []) : splitSlash (joinSlash ps) = ps := by
  induction ps with
  | nil => exact absurd rfl hne
  | cons p rest ih =>
    cases rest with
    | nil => simpa [joinSlash] using splitSlash_eq_self (h p (by simp))
    | cons q rest' =>
      rw [joinSlash, splitSlash_append _ (h p (by simp)),
        ih (fun x hx => h x (List.mem_cons_of_mem p hx)) (by simp)]

theorem foldl_normStep_replicate (k m : Nat) (acc : List (List Char)) :
    (List.replicate m ([] : List Char)).foldl (normStep k) acc = acc := by
  induction m generalizing acc with
  | zero => rfl
  | succ n ih =>
    rw [List.replicate_succ, List.foldl_cons,
      show normStep k acc [] = acc by simp [normStep]]
    exact ih acc

theorem foldl_normStep_good (k : Nat) {cs : List (List Char)}
    (h : ∀ c ∈ cs, goodComp c) :
    ∀ acc, cs.foldl (normStep k) acc = acc ++ cs := by
  induction cs with
  | nil => simp
  | cons c rest ih =>
    intro acc
    have hc := h c (List.mem_cons_self c rest)
    have h1 : ¬(c = [] ∨ c = ['.']) := by
      push_neg
      exact ⟨hc.1, hc.2.1⟩
    have h2 : c ≠ ['.', '.'] ∨ (k = 0 ∧ acc = []) ∨
        (acc ≠ [] ∧ acc.getLastD [] = ['.', '.']) := Or.inl hc.2.2.1
    rw [List.foldl_cons, show normStep k acc c = acc ++ [c] by
      simp only [normStep, if_neg h1, if_pos h2]]
    rw [ih (fun x hx => h x (List.mem_cons_of_mem c hx)) (acc ++ [c])]
    simp

theorem foldl_normStep_all_good {k : Nat} (hk : k ≠ 0) {cs : List (List Char)}
    (hcs : ∀ c ∈ cs, '/' ∉ c) :
    ∀ acc, (∀ a ∈ acc, goodComp a) → ∀ r ∈ cs.foldl (normStep k) acc, goodComp r := by
  induction cs with
  | nil => exact fun acc hacc r hr => hacc r hr
  | cons c rest ih =>
    intro acc hacc r hr
    rw [List.foldl_cons] at hr
    refine ih (fun x hx => hcs x (List.mem_cons_of_mem c hx)) (normStep k acc c) ?_ r hr
    intro a ha
    simp only [normStep] at ha
    by_cases h1 : c = [] ∨ c = ['.']
    · rw [if_pos h1] at ha
      exact hacc a ha
    · rw [if_neg h1] at ha
      by_cases h2 : c ≠ ['.', '.'] ∨ (k = 0 ∧ acc = []) ∨
          (acc ≠ [] ∧ acc.getLastD [] = ['.', '.'])
      · rw [if_pos h2] at ha
        rcases List.mem_append.mp ha with h | h
        · exact hacc a h
        · have hc2 : c ≠ ['.', '.'] := by
            rcases h2 with h2 | h2 | h2
            · exact h2
            · exact absurd h2.1 hk
            · exfalso
              have hmem : ['.', '.'] ∈ acc := by
                have hLast := h2.2
                rw [List.getLastD_eq_getLast?] at hLast
                cases hg : acc.getLast? with
                | none => rw [hg] at hLast; simp at hLast
                | some v =>
                  rw [hg] at hLast
                  simp only [Option.getD_some] at hLast
                  subst hLast
                  exact List.mem_of_getLast?_eq_some hg
              exact (hacc _ hmem).2.2.1 rfl
          push_neg at h1
          have haeq : a = c := by simpa using h
          subst haeq
          exact ⟨h1.1, h1.2, hc2, hcs a (List.mem_cons_self a rest)⟩
      · rw [if_neg h2] at ha
        by_cases h3 : acc ≠ []
        · rw [if_pos h3] at ha
          exact hacc a ((List.dropLast_sublist acc).subset ha)
        · rw [if_neg h3] at ha
          exact hacc a ha

theorem joinSlash_head_ne_slash {ps : List (List Char)} (h : ∀ p ∈ ps, goodComp p) :
    (joinSlash ps).head? ≠ some '/' := by
  cases ps with
  | nil => simp [joinSlash]
  | cons p rest =>
    have hp := h p (List.mem_cons_self p rest)
    cases hq : p with
    | nil => exact absurd hq hp.1
    | cons c cs =>
      have hc : c ≠ '/' := fun e => hp.2.2.2 (by rw [hq, e]; exact List.mem_cons_self _ _)
      cases rest with
      | nil =>
        simp only [joinSlash, hq, List.head?_cons]
        exact fun e => hc (Option.some.inj e)
      | cons q rest' =>
        simp only [joinSlash, hq, List.cons_append, List.head?_cons]
        exact fun e => hc (Option.some.inj e)

theorem slashCount_NF {k : Nat} (hk : k = 1 ∨ k = 2) {cs : List (List Char)}
    (h : ∀ p ∈ cs, goodComp p) :
    slashCount (List.replicate k '/' ++ joinSlash cs) = k := by
  have hhead := joinSlash_head_ne_slash h
  rcases hk with rfl | rfl
  · cases hj : joinSlash cs with
    | nil => simp [slashCount, isAbsChars, List.replicate_succ]
    | cons c rest =>
      rw [hj] at hhead
      have hc : c ≠ '/' := by simpa using hhead
      simp [slashCount, isAbsChars, List.replicate_succ, hc]
  · cases hj : joinSlash cs with
    | nil => simp [slashCount, isAbsChars, List.replicate_succ]
    | cons c rest =>
      rw [hj] at hhead
      have hc : c ≠ '/' := by simpa using hhead
      simp [slashCount, isAbsChars, List.replicate_succ, hc]

theorem splitSlash_replicate_append (k : Nat) (x : List Char) :
    splitSlash (List.replicate k '/' ++ x) = List.replicate k [] ++ splitSlash x := by
  induction k with
  | zero => rfl
  | succ n ih =>
    rw [List.replicate_succ, List.cons_append,
      show splitSlash ('/' :: (List.replicate n '/' ++ x)) =
        [] :: splitSlash (List.replicate n '/' ++ x) by simp [splitSlash],
      ih, List.replicate_succ]
    rfl

theorem normChars_NF_fixed {k : Nat} (hk : k = 1 ∨ k = 2) {cs : List (List Char)}
    (h : ∀ p ∈ cs, goodComp p) :
    normChars (List.replicate k '/' ++ joinSlash cs) =
      List.replicate k '/' ++ joinSlash cs := by
  have hrep : List.replicate k '/' ≠ ([] : List Char) := by
    rcases hk with rfl | rfl <;> simp
  have hne : List.replicate k '/' ++ joinSlash cs ≠ [] := by
    intro hcon
    exact hrep (List.append_eq_nil.mp hcon).1
  have hfold : (splitSlash (List.replicate k '/' ++ joinSlash cs)).foldl
      (normStep k) [] = cs := by
    rw [splitSlash_replicate_append, List.foldl_append, foldl_normStep_replicate]
    cases cs with
    | nil => simp [joinSlash, splitSlash, normStep]
    | cons c cs' =>
      rw [splitSlash_joinSlash (fun p hp => (h p hp).2.2.2) (by simp)]
      rw [foldl_normStep_good _ h []]
      simp
  simp only [normChars, if_neg hne, hfold, slashCount_NF hk h, if_neg hne]

theorem normChars_NF {p : List Char} (hp : isAbsChars p = true) :
    ∃ k cs, (k = 1 ∨ k = 2) ∧ (∀ c ∈ cs, goodComp c) ∧
      normChars p = List.replicate k '/' ++ joinSlash cs := by
  have hne : p ≠ [] := by
    intro h
    subst h
    simp [isAbsChars] at hp
  have hk : slashCount p = 1 ∨ slashCount p = 2 := by
    simp only [slashCount, if_pos hp]
    split <;> simp
  refine ⟨slashCount p, (splitSlash p).foldl (normStep (slashCount p)) [], hk, ?_, ?_⟩
  · exact foldl_normStep_all_good (by rcases hk with h | h <;> simp [h])
      (fun c hc => not_slash_mem_splitSlash hc) [] (by simp)
  · have hres : List.replicate (slashCount p) '/' ++
        joinSlash ((splitSlash p).foldl (normStep (slashCount p)) []) ≠ [] := by
      intro hcon
      have hrep := (List.append_eq_nil.mp hcon).1
      rcases hk with h | h <;> rw [h] at hrep <;> simp at hrep
    simp only [normChars, if_neg hne, if_neg hres]

theorem isAbs_normChars {p : List Char} (hp : isAbsChars p = true) :
    isAbsChars (normChars p) = true := by
  obtain ⟨k, cs, hk, _, heq⟩ := normChars_NF hp
  rw [heq]
  rcases hk with rfl | rfl <;>
    simp [isAbsChars, List.replicate_succ]

theorem normChars_idem {p : List Char} (hp : isAbsChars p = true) :
    normChars (normChars p) = normChars p := by
  obtain ⟨k, cs, hk, hgood, heq⟩ := normChars_NF hp
  rw [heq, normChars_NF_fixed hk hgood]

theorem isAbs_joinChars {a : List Char} (b : List Char) (ha : isAbsChars a = true) :
    isAbsChars (joinChars a b) = true := by
  by_cases hb : isAbsChars b = true
  · simp [joinChars, hb]
  · cases a with
    | nil => simp [isAbsChars] at ha
    | cons c rest =>
      have hc : c = '/' := by simpa [isAbsChars] using ha
      subst hc
      simp only [joinChars]
      rw [if_neg (by simpa using hb)]
      split <;> simp [isAbsChars]

theorem abspath_eq_norm (cwd p : List Char) (hcwd : isAbsChars cwd = true) :
    ∃ q, isAbsChars q = true ∧ abspathChars cwd p = normChars q := by
  by_cases hp : isAbsChars p = true
  · exact ⟨p, hp, by simp [abspathChars, hp]⟩
  · exact ⟨joinChars cwd p, isAbs_joinChars p hcwd, by simp [abspathChars, hp]⟩

theorem canon_idem_chars {cwd : List Char} (hcwd : isAbsChars cwd = true)
    (p : List Char) : canonChars cwd (canonChars cwd p) = canonChars cwd p := by
  obtain ⟨q, hq, heq⟩ := abspath_eq_norm cwd (normChars p) hcwd
  have h1 : canonChars cwd p = normChars q := heq
  have habs : isAbsChars (canonChars cwd p) = true := by
    rw [h1]
    exact isAbs_normChars hq
  have hidem : normChars (canonChars cwd p) = canonChars cwd p := by
    rw [h1]
    exact normChars_idem hq
  show abspathChars cwd (normChars (canonChars cwd p)) = canonChars cwd p
  rw [hidem]
  simp [abspathChars, habs, hidem]

theorem isAbs_canonChars {cwd : List Char} (hcwd : isAbsChars cwd = true)
    (p : List Char) : isAbsChars (canonChars cwd p) = true := by
  obtain ⟨q, hq, heq⟩ := abspath_eq_norm cwd (normChars p) hcwd
  rw [show canonChars cwd p = normChars q from heq]
  exact isAbs_normChars hq

theorem canon_path_idem {cwd : String} (hcwd : isAbsChars cwd.data = true)
    (p : String) : canon_path cwd (canon_path cwd p) = canon_path cwd p := by
  simp only [canon_path]
  exact congrArg String.mk (canon_idem_chars hcwd p.data)

theorem isAbs_canon_path {cwd : String} (hcwd : isAbsChars cwd.data = true)
    (p : String) : isAbsChars (canon_path cwd p).data = true :=
  isAbs_canonChars hcwd p.data

/-! ### Dictionary (association list) lemmas. -/

theorem lookupAppend {β : Type} (l₁ l₂ : List (String × β)) (k : String) :
    (l₁ ++ l₂).lookup k =
      match l₁.lookup k with
      | some v => some v
      | none => l₂.lookup k := by
  induction l₁ with
  | nil => rfl
  | cons a rest ih =>
    cases a with
    | mk a1 a2 =>
      by_cases h : (k == a1) = true
      · simp [List.lookup, h]
      · rw [Bool.not_eq_true] at h
        simp only [List.cons_append, List.lookup, h]
        exact ih

theorem lookup_eq_none_iff {β : Type} {l : List (String × β)} {k : String} :
    l.lookup k = none ↔ k ∉ l.map Prod.fst := by
  induction l with
  | nil => simp
  | cons a rest ih =>
    cases a with
    | mk a1 a2 =>
      by_cases h : k = a1
      · subst h
        simp [List.lookup]
      · have hb : (k == a1) = false := by simpa using h
        simp [List.lookup, hb, h, ih]

theorem lookup_isSome_iff {β : Type} {l : List (String × β)} {k : String} :
    (l.lookup k).isSome = true ↔ k ∈ l.map Prod.fst := by
  rw [Option.isSome_iff_ne_none]
  constructor
  · intro h
    by_contra hmem
    exact h (lookup_eq_none_iff.mpr hmem)
  · intro hmem hnone
    exact (lookup_eq_none_iff.mp hnone) hmem

theorem lookup_map_replace_self {β : Type} (l : List (String × β)) (k : String) (v : β)
    (h : (l.lookup k).isSome = true) :
    (l.map (fun kv => if kv.1 == k then (kv.1, v) else kv)).lookup k = some v := by
  induction l with
  | nil => simp at h
  | cons a rest ih =>
    cases a with
    | mk a1 a2 =>
      simp only [List.map_cons]
      by_cases hk : (a1 == k) = true
      · rw [if_pos hk]
        have hkk : (k == a1) = true := by
          have h1 : a1 = k := by simpa using hk
          simp [h1]
        simp only [List.lookup, hkk]
      · rw [if_neg hk]
        rw [Bool.not_eq_true] at hk
        have hkk : (k == a1) = false := by
          have h1 : ¬ a1 = k := by simpa using hk
          simp
          exact fun e => h1 e.symm
        simp only [List.lookup, hkk] at h ⊢
        exact ih h

theorem lookup_map_replace_ne {β : Type} (l : List (String × β)) {k kp : String}
    (hne : kp ≠ k) (v : β) :
    (l.map (fun kv => if kv.1 == k then (kv.1, v) else kv)).lookup kp = l.lookup kp := by
  induction l with
  | nil => rfl
  | cons a rest ih =>
    cases a with
    | mk a1 a2 =>
      simp only [List.map_cons]
      by_cases hk : (a1 == k) = true
      · rw [if_pos hk]
        have ha1 : a1 = k := by simpa using hk
        have hb : (kp == a1) = false := by simp [ha1, hne]
        simp only [List.lookup, hb]
        exact ih
      · rw [if_neg hk]
        simp only [List.lookup]
        by_cases hb : (kp == a1) = true
        · simp only [hb]
        · rw [Bool.not_eq_true] at hb
          simp only [hb]
          exact ih

theorem lookup_alistInsert_self {β : Type} (l : List (String × β)) (k : String) (v : β) :
    (alistInsert l k v).lookup k = some v := by
  unfold alistInsert
  by_cases h : (l.lookup k).isSome = true
  · rw [if_pos h]
    exact lookup_map_replace_self l k v h
  · rw [if_neg h, lookupAppend, Option.not_isSome_iff_eq_none.mp h]
    simp [List.lookup]

theorem lookup_alistInsert_ne {β : Type} (l : List (String × β)) {k kp : String}
    (hne : kp ≠ k) (v : β) : (alistInsert l k v).lookup kp = l.lookup kp := by
  unfold alistInsert
  by_cases h : (l.lookup k).isSome = true
  · rw [if_pos h]
    exact lookup_map_replace_ne l hne v
  · rw [if_neg h, lookupAppend]
    cases hl : l.lookup kp with
    | none => simp [List.lookup, show (kp == k) = false by simpa using hne]
    | some w => simp

theorem alistInsert_keys {β : Type} (l : List (String × β)) (k : String) (v : β) :
    (alistInsert l k v).map Prod.fst =
      if (l.lookup k).isSome = true then l.map Prod.fst
      else l.map Prod.fst ++ [k] := by
  unfold alistInsert
  by_cases h : (l.lookup k).isSome = true
  · rw [if_pos h, if_pos h, List.map_map]
    congr 1
    funext kv
    simp only [Function.comp_apply]
    split <;> rfl
  · rw [if_neg h, if_neg h]
    simp

/-! ### The toggle operation: closed form and frame lemmas. -/

theorem toggleAt_eq (cwd : String) (s : StoreData) (e sf : String) (line : PyVal)
    (hce : canon_path cwd e = e) :
    toggleAt cwd s e sf line = some (toggleCore s e sf line) := by
  have hadd : add_executable cwd s e =
      { entries := if (s.entries.lookup e).isSome = true then s.entries
          else s.entries ++ [(e, [])],
        lastUsed := some e } := by
    unfold add_executable set_last_used
    simp only [hce]
    split <;> rfl
  by_cases h : (s.entries.lookup e).isSome = true
  · obtain ⟨bps, hbps⟩ := Option.isSome_iff_exists.mp h
    unfold toggleAt toggleCore toggleLines getLines?
    rw [hadd]
    simp only [if_pos h]
    simp only [hbps, Option.getD_some, Option.some_bind]
    cases hsf : List.lookup sf bps <;> simp only [hsf]
  · have hnone : s.entries.lookup e = none := Option.not_isSome_iff_eq_none.mp h
    have hlk : (s.entries ++ [(e, [])]).lookup e = some [] := by
      rw [lookupAppend, hnone]
      simp [List.lookup]
    unfold toggleAt toggleCore toggleLines getLines?
    rw [hadd]
    simp only [if_neg h]
    simp only [hlk, hnone, Option.getD_some, Option.none_bind, List.lookup_nil]

theorem toggle_eq (cwd : String) (s : StoreData) (exe : Option String) (e : String)
    (source_file : String) (line : PyVal)
    (hres : resolveExec cwd s exe = some e) (hce : canon_path cwd e = e) :
    toggle_breakpoint cwd s exe source_file line =
      some (toggleCore s e (basenameStr source_file) line) := by
  cases exe with
  | none =>
    have hl : s.lastUsed = some e := hres
    unfold toggle_breakpoint
    rw [hl]
    exact toggleAt_eq cwd s e (basenameStr source_file) line hce
  | some e0 =>
    have he : canon_path cwd e0 = e := by simpa [resolveExec] using hres
    unfold toggle_breakpoint
    simp only [he]
    rw [toggleAt_eq cwd (set_last_used cwd s e) e (basenameStr source_file) line hce]
    rfl

theorem toggleCore_getLines_self (s : StoreData) (e sf : String) (line : PyVal) :
    getLines? (toggleCore s e sf line) e sf =
      some (toggleLines (getLines? s e sf) line) := by
  show ((toggleCore s e sf line).entries.lookup e).bind _ = _
  unfold toggleCore
  simp only [lookup_alistInsert_self, Option.some_bind]

theorem toggleCore_lookup_ne (s : StoreData) (e sf : String) (line : PyVal)
    {k : String} (hk : k ≠ e) :
    (toggleCore s e sf line).entries.lookup k = s.entries.lookup k := by
  unfold toggleCore
  simp only []
  rw [lookup_alistInsert_ne _ hk]
  by_cases h : (s.entries.lookup e).isSome = true
  · rw [if_pos h]
  · rw [if_neg h, lookupAppend]
    cases hl : s.entries.lookup k with
    | none => simp [List.lookup, show (k == e) = false by simpa using hk]
    | some w => simp

theorem toggleCore_getLines_ne (s : StoreData) (e sf : String) (line : PyVal)
    {t : String} (ht : t ≠ sf) :
    getLines? (toggleCore s e sf line) e t = getLines? s e t := by
  show ((toggleCore s e sf line).entries.lookup e).bind _ = _
  unfold toggleCore
  simp only [lookup_alistInsert_self, Option.some_bind]
  rw [lookup_alistInsert_ne _ ht]
  unfold getLines?
  by_cases h : (s.entries.lookup e).isSome = true
  · obtain ⟨bps, hbps⟩ := Option.isSome_iff_exists.mp h
    rw [if_pos h, hbps]
    simp only [Option.getD_some, Option.some_bind]
  · have hnone : s.entries.lookup e = none := Option.not_isSome_iff_eq_none.mp h
    have hlk : (s.entries ++ [(e, [])]).lookup e = some [] := by
      rw [lookupAppend, hnone]
      simp [List.lookup]
    rw [if_neg h, hlk, hnone]
    simp

theorem toggleCore_keys (s : StoreData) (e sf : String) (line : PyVal) :
    (toggleCore s e sf line).entries.map Prod.fst = s.entries.map Prod.fst ∨
      (toggleCore s e sf line).entries.map Prod.fst = s.entries.map Prod.fst ++ [e] := by
  unfold toggleCore
  simp only []
  rw [alistInsert_keys]
  by_cases h : (s.entries.lookup e).isSome = true
  · left
    rw [if_pos h, if_pos h]
  · right
    have hlk : ((s.entries ++ [(e, [])]).lookup e).isSome = true := by
      rw [lookupAppend, Option.not_isSome_iff_eq_none.mp h]
      simp [List.lookup]
    rw [if_neg h, if_pos hlk]
    simp

theorem toggleCore_lastUsed (s : StoreData) (e sf : String) (line : PyVal) :
    (toggleCore s e sf line).lastUsed = some e := rfl

/-! ### The clean loops: re-toggling every breakpoint in reverse order
empties each list. -/

theorem revLoop_spec (cwd e sf : String)
    (hce : canon_path cwd e = e) (hsf : basenameStr sf = sf) :
    ∀ (n : Nat) (s : StoreData) (lines : List PyVal),
      getLines? s e sf = some lines → lines.length = n →
      ∃ s', revLoop cwd e sf n s = some s' ∧ getLines? s' e sf = some [] ∧
        (∀ t, t ≠ sf → getLines? s' e t = getLines? s e t) ∧
        (∀ k, k ≠ e → s'.entries.lookup k = s.entries.lookup k) := by
  intro n
  induction n with
  | zero =>
    intro s lines hl hlen
    have hnil : lines = [] := List.eq_nil_of_length_eq_zero hlen
    subst hnil
    exact ⟨s, rfl, hl, fun t _ => rfl, fun k _ => rfl⟩
  | succ i ih =>
    intro s lines hl hlen
    have hlt : i < lines.length := by omega
    have hxi : lines[i]? = some lines[i] := List.getElem?_eq_getElem hlt
    have hxmem : lines[i] ∈ lines := List.getElem_mem hlt
    have htog := toggle_eq cwd s (some e) e sf lines[i]
      (by simp [resolveExec, hce]) hce
    rw [hsf] at htog
    have hnew : getLines? (toggleCore s e sf lines[i]) e sf =
        some (lines.erase lines[i]) := by
      rw [toggleCore_getLines_self, hl]
      simp [toggleLines, hxmem]
    have hlen2 : (lines.erase lines[i]).length = i := by
      rw [List.length_erase_of_mem hxmem, hlen]
      omega
    obtain ⟨s', hs', hempty, hft, hfk⟩ :=
      ih (toggleCore s e sf lines[i]) (lines.erase lines[i]) hnew hlen2
    refine ⟨s', ?_, hempty, ?_, ?_⟩
    · unfold revLoop
      simp only [hl, hxi, htog]
      exact hs'
    · intro t ht
      rw [hft t ht, toggleCore_getLines_ne _ _ _ _ ht]
    · intro k hk
      rw [hfk k hk, toggleCore_lookup_ne _ _ _ _ hk]

theorem cleanOuter_spec (cwd e : String) (hce : canon_path cwd e = e) :
    ∀ (sfs : List String) (s : StoreData),
      (∀ sf ∈ sfs, basenameStr sf = sf) →
      (∀ sf ∈ sfs, ∃ lines, getLines? s e sf = some lines) →
      ∃ s', cleanOuter cwd e sfs s = some s' ∧
        (∀ sf ∈ sfs, getLines? s' e sf = some []) ∧
        (∀ t, t ∉ sfs → getLines? s' e t = getLines? s e t) ∧
        (∀ k, k ≠ e → s'.entries.lookup k = s.entries.lookup k) := by
  intro sfs
  induction sfs with
  | nil =>
    intro s _ _
    exact ⟨s, rfl, by simp, fun t _ => rfl, fun k _ => rfl⟩
  | cons sf rest ih =>
    intro s hbase hex
    obtain ⟨lines, hl⟩ := hex sf (List.mem_cons_self sf rest)
    obtain ⟨s1, hs1, hempty1, hft1, hfk1⟩ :=
      revLoop_spec cwd e sf hce (hbase sf (List.mem_cons_self sf rest))
        lines.length s lines hl rfl
    have hex2 : ∀ t ∈ rest, ∃ ls, getLines? s1 e t = some ls := by
      intro t htr
      by_cases hts : t = sf
      · subst hts
        exact ⟨[], hempty1⟩
      · obtain ⟨ls, hls⟩ := hex t (List.mem_cons_of_mem sf htr)
        exact ⟨ls, by rw [hft1 t hts]; exact hls⟩
    obtain ⟨s', hs', hempty', hft', hfk'⟩ :=
      ih s1 (fun t ht => hbase t (List.mem_cons_of_mem sf ht)) hex2
    refine ⟨s', ?_, ?_, ?_, ?_⟩
    · unfold cleanOuter
      simp only [hl, hs1]
      exact hs'
    · intro t ht
      rcases List.mem_cons.mp ht with rfl | htr
      · by_cases htr2 : t ∈ rest
        · exact hempty' t htr2
        · rw [hft' t htr2]
          exact hempty1
      · exact hempty' t htr
    · intro t htns
      have ht1 : t ∉ rest := fun hh => htns (List.mem_cons_of_mem sf hh)
      have ht2 : t ≠ sf := fun hh => htns (hh ▸ List.mem_cons_self sf rest)
      rw [hft' t ht1, hft1 t ht2]
    · intro k hk
      rw [hfk' k hk, hfk1 k hk]

/-! ### Canonical-key invariant preservation. -/

theorem toggleAt_none (cwd : String) (s : StoreData) (e sf : String) (line : PyVal)
    (hne : canon_path cwd e ≠ e) (hnk : s.entries.lookup e = none) :
    toggleAt cwd s e sf line = none := by
  have hle : ((add_executable cwd s e).entries.lookup e) = none := by
    simp only [add_executable, set_last_used]
    by_cases h : ((s.entries.lookup (canon_path cwd e)).isSome = true)
    · rw [if_pos h]
      exact hnk
    · rw [if_neg h]
      rw [lookupAppend, hnk]
      simp only [List.lookup, List.lookup_nil]
      rw [show (e == canon_path cwd e) = false by
        simpa using fun hcon => hne hcon.symm]
  unfold toggleAt
  simp only [hle]

theorem add_executable_canonicalKeys (cwd : String) (hcwd : isAbsChars cwd.data = true)
    {s : StoreData} (hI : canonicalKeys cwd s) (f : String) :
    canonicalKeys cwd (add_executable cwd s f) := by
  simp only [add_executable, set_last_used]
  by_cases h : ((s.entries.lookup (canon_path cwd f)).isSome = true)
  · rw [if_pos h]
    exact hI
  · rw [if_neg h]
    intro k hk
    simp only [List.map_append] at hk
    rcases List.mem_append.mp hk with h1 | h1
    · exact hI k h1
    · have hkf : k = canon_path cwd f := by simpa using h1
      subst hkf
      exact canon_path_idem hcwd f

theorem set_last_used_canonicalKeys (cwd : String) {s : StoreData}
    (hI : canonicalKeys cwd s) (p : String) :
    canonicalKeys cwd (set_last_used cwd s p) := hI

theorem toggle_canonicalKeys (cwd : String) (hcwd : isAbsChars cwd.data = true)
    {s : StoreData} (hI : canonicalKeys cwd s) {exe : Option String}
    {sf : String} {line : PyVal} {s' : StoreData}
    (h : toggle_breakpoint cwd s exe sf line = some s') : canonicalKeys cwd s' := by
  cases exe with
  | some e0 =>
    have hce := canon_path_idem hcwd e0
    have heq := toggle_eq cwd s (some e0) (canon_path cwd e0) sf line rfl hce
    rw [h] at heq
    obtain rfl := Option.some.inj heq
    intro k hk
    rcases toggleCore_keys s (canon_path cwd e0) (basenameStr sf) line with hkeys | hkeys
    · rw [hkeys] at hk
      exact hI k hk
    · rw [hkeys] at hk
      rcases List.mem_append.mp hk with h1 | h1
      · exact hI k h1
      · have hke : k = canon_path cwd e0 := by simpa using h1
        subst hke
        exact hce
  | none =>
    unfold toggle_breakpoint at h
    cases hlast : s.lastUsed with
    | none =>
      simp only [hlast] at h
      exact Option.noConfusion h
    | some e =>
      simp only [hlast] at h
      by_cases hce : canon_path cwd e = e
      · have heq := toggleAt_eq cwd s e (basenameStr sf) line hce
        rw [h] at heq
        obtain rfl := Option.some.inj heq
        intro k hk
        rcases toggleCore_keys s e (basenameStr sf) line with hkeys | hkeys
        · rw [hkeys] at hk
          exact hI k hk
        · rw [hkeys] at hk
          rcases List.mem_append.mp hk with h1 | h1
          · exact hI k h1
          · have hke : k = e := by simpa using h1
            subst hke
            exact hce
      · have hnk : s.entries.lookup e = none := by
          rw [lookup_eq_none_iff]
          intro hmem
          exact hce (hI e hmem)
        rw [toggleAt_none cwd s e (basenameStr sf) line hce hnk] at h
        exact absurd h (by simp)

theorem revLoop_canonicalKeys (cwd : String) (hcwd : isAbsChars cwd.data = true)
    {e sf : String} :
    ∀ (n : Nat) {s s' : StoreData}, canonicalKeys cwd s →
      revLoop cwd e sf n s = some s' → canonicalKeys cwd s' := by
  intro n
  induction n with
  | zero =>
    intro s s' hI h
    obtain rfl := Option.some.inj h
    exact hI
  | succ i ih =>
    intro s s' hI h
    unfold revLoop at h
    cases hgl : getLines? s e sf with
    | none =>
      simp only [hgl] at h
      exact Option.noConfusion h
    | some lines =>
      simp only [hgl] at h
      cases hxi : lines[i]? with
      | none =>
        simp only [hxi] at h
        obtain rfl := Option.some.inj h
        exact hI
      | some x =>
        simp only [hxi] at h
        cases htog : toggle_breakpoint cwd s (some e) sf x with
        | none =>
          simp only [htog] at h
          exact Option.noConfusion h
        | some s1 =>
          simp only [htog] at h
          exact ih (toggle_canonicalKeys cwd hcwd hI htog) h

theorem cleanOuter_canonicalKeys (cwd : String) (hcwd : isAbsChars cwd.data = true)
    {e : String} :
    ∀ (sfs : List String) {s s' : StoreData}, canonicalKeys cwd s →
      cleanOuter cwd e sfs s = some s' → canonicalKeys cwd s' := by
  intro sfs
  induction sfs with
  | nil =>
    intro s s' hI h
    obtain rfl := Option.some.inj h
    exact hI
  | cons sf rest ih =>
    intro s s' hI h
    unfold cleanOuter at h
    cases hgl : getLines? s e sf with
    | none =>
      simp only [hgl] at h
      exact Option.noConfusion h
    | some lines =>
      simp only [hgl] at h
      cases hrl : revLoop cwd e sf lines.length s with
      | none =>
        simp only [hrl] at h
        exact Option.noConfusion h
      | some s1 =>
        simp only [hrl] at h
        exact ih (revLoop_canonicalKeys cwd hcwd lines.length hI hrl) h

theorem clean_canonicalKeys (cwd : String) (hcwd : isAbsChars cwd.data = true)
    {s : StoreData} {exe : Option String} {s' : StoreData}
    (hI : canonicalKeys cwd s) (h : clean_breakpoints cwd s exe = some s') :
    canonicalKeys cwd s' := by
  unfold clean_breakpoints at h
  cases hres : (match exe with | none => s.lastUsed | some e => some e) with
  | none =>
    simp only [hres] at h
    exact Option.noConfusion h
  | some e =>
    simp only [hres] at h
    cases hk : s.entries.lookup e with
    | none =>
      simp only [hk] at h
      exact Option.noConfusion h
    | some bps =>
      simp only [hk] at h
      exact cleanOuter_canonicalKeys cwd hcwd (bps.map Prod.fst) hI h

/-! ### JSON round trip. -/

theorem decodePy_encodePy (v : PyVal) : decodePy (encodePy v) = some v := by
  cases v <;> rfl

theorem decodeLines_encodeLines (ls : List PyVal) :
    decodeLines (encodeLines ls) = some ls := by
  simp only [decodeLines, encodeLines]
  induction ls with
  | nil => rfl
  | cons v rest ih =>
    simp only [List.map_cons, List.mapM_cons, decodePy_encodePy, ih]
    rfl

theorem decodeBps_encodeBps (bps : Breakpoints) :
    decodeBps (encodeBps bps) = some bps := by
  simp only [decodeBps, encodeBps]
  induction bps with
  | nil => rfl
  | cons kv rest ih =>
    simp only [List.map_cons, decodeBpsFields, decodeLines_encodeLines]
    simp only [List.map] at ih
    rw [ih]

theorem decodeEntry_encodeEntry (bps : Breakpoints) :
    decodeEntry (encodeEntry bps) = some bps := by
  simp only [decodeEntry, encodeEntry]
  exact decodeBps_encodeBps bps

theorem decodeFields_entries (l : List (String × Breakpoints)) :
    ∀ (rest : List (String × Jval)) (acc : StoreData),
      (∀ k ∈ l.map Prod.fst, k ≠ "LASTUSED") →
      decodeFields ((l.map fun kv => (kv.1, encodeEntry kv.2)) ++ rest) acc =
        decodeFields rest { acc with entries := acc.entries ++ l } := by
  induction l with
  | nil =>
    intro rest acc _
    simp
  | cons kv l' ih =>
    intro rest acc hk
    cases kv with
    | mk k b =>
      have hkl : k ≠ "LASTUSED" := hk k (by simp)
      simp only [List.map_cons, List.cons_append, decodeFields, if_neg hkl,
        decodeEntry_encodeEntry, List.append_eq]
      rw [ih rest _ (fun x hx => hk x (by simp [hx]))]
      simp

/-! ### Claim theorems. -/

/-- Claim C1: for every store, executable, source file and line, when the
resolved executable's breakpoint list for the source file's basename does not
contain the line, `toggle_breakpoint` appends it (creating the one-element
list `[line]` when no list exists yet); when the list contains the line it is
removed; a duplicate-free list stays duplicate-free (and the removed line is
gone). -/
theorem toggle_breakpoint_toggles (cwd : String) (s : StoreData) (exe : Option String)
    (e source_file : String) (line : PyVal)
    (hres : resolveExec cwd s exe = some e) (hce : canon_path cwd e = e) :
    ∃ s', toggle_breakpoint cwd s exe source_file line = some s' ∧
      (getLines? s e (basenameStr source_file) = none →
        getLines? s' e (basenameStr source_file) = some [line]) ∧
      (∀ lines, getLines? s e (basenameStr source_file) = some lines →
        (line ∉ lines →
          getLines? s' e (basenameStr source_file) = some (lines ++ [line])) ∧
        (line ∈ lines →
          getLines? s' e (basenameStr source_file) = some (lines.erase line)) ∧
        (lines.Nodup → ∀ l2, getLines? s' e (basenameStr source_file) = some l2 →
          l2.Nodup ∧ (line ∈ lines → line ∉ l2))) := by
  refine ⟨toggleCore s e (basenameStr source_file) line,
    toggle_eq cwd s exe e source_file line hres hce, ?_, ?_⟩
  · intro hnone
    rw [toggleCore_getLines_self, hnone]
    rfl
  · intro lines hsome
    have hself := toggleCore_getLines_self s e (basenameStr source_file) line
    rw [hsome] at hself
    refine ⟨?_, ?_, ?_⟩
    · intro hnot
      rw [hself]
      simp [toggleLines, hnot]
    · intro hin
      rw [hself]
      simp [toggleLines, hin]
    · intro hnd l2 hl2
      rw [hself] at hl2
      have hl2e : l2 = toggleLines (some lines) line := (Option.some.inj hl2).symm
      subst hl2e
      by_cases hin : line ∈ lines
      · refine ⟨?_, fun _ => ?_⟩
        · simp only [toggleLines, if_pos hin]
          exact hnd.erase line
        · simp only [toggleLines, if_pos hin]
          exact hnd.not_mem_erase
      · refine ⟨?_, fun hin2 => absurd hin2 hin⟩
        simp only [toggleLines, if_neg hin]
        simp [List.nodup_append, hnd, hin]

/-- Witness for C1 at a concrete input. -/
theorem toggle_breakpoint_toggles_witness :
    resolveExec "/" ⟨[], none⟩ (some "/bin/a") = some "/bin/a" ∧
    canon_path "/" "/bin/a" = "/bin/a" ∧
    (∃ s', toggle_breakpoint "/" ⟨[], none⟩ (some "/bin/a") "src/a.c" (PyVal.int 7) =
        some s' ∧
      (getLines? ⟨[], none⟩ "/bin/a" (basenameStr "src/a.c") = none →
        getLines? s' "/bin/a" (basenameStr "src/a.c") = some [PyVal.int 7]) ∧
      (∀ lines, getLines? ⟨[], none⟩ "/bin/a" (basenameStr "src/a.c") = some lines →
        (PyVal.int 7 ∉ lines →
          getLines? s' "/bin/a" (basenameStr "src/a.c") = some (lines ++ [PyVal.int 7])) ∧
        (PyVal.int 7 ∈ lines →
          getLines? s' "/bin/a" (basenameStr "src/a.c") = some (lines.erase (PyVal.int 7))) ∧
        (lines.Nodup → ∀ l2, getLines? s' "/bin/a" (basenameStr "src/a.c") = some l2 →
          l2.Nodup ∧ (PyVal.int 7 ∈ lines → PyVal.int 7 ∉ l2)))) :=
  ⟨by decide, by decide,
    toggle_breakpoint_toggles "/" ⟨[], none⟩ (some "/bin/a") "/bin/a" "src/a.c"
      (PyVal.int 7) (by decide) (by decide)⟩

/-- Counterexample to C2 as stated: with list `[10, 20]`, toggling line 10
twice yields `[20, 10]`, not the original `[10, 20]` — the double toggle
moves the line to the end of the list instead of restoring it exactly. -/
theorem double_toggle_not_exact :
    toggle_breakpoint "/" ⟨[("/bin/a", [("a.c", [PyVal.int 10, PyVal.int 20])])], none⟩
        (some "/bin/a") "a.c" (PyVal.int 10) =
      some ⟨[("/bin/a", [("a.c", [PyVal.int 20])])], some "/bin/a"⟩ ∧
    toggle_breakpoint "/" ⟨[("/bin/a", [("a.c", [PyVal.int 20])])], some "/bin/a"⟩
        (some "/bin/a") "a.c" (PyVal.int 10) =
      some ⟨[("/bin/a", [("a.c", [PyVal.int 20, PyVal.int 10])])], some "/bin/a"⟩ ∧
    getLines? ⟨[("/bin/a", [("a.c", [PyVal.int 20, PyVal.int 10])])], some "/bin/a"⟩
        "/bin/a" "a.c" ≠
      getLines? ⟨[("/bin/a", [("a.c", [PyVal.int 10, PyVal.int 20])])], none⟩
        "/bin/a" "a.c" :=
  ⟨by decide, by decide, by decide⟩

/-- Claim C2 (amended): toggling the same (executable, file, line) twice
restores the breakpoint list up to element order — the result is a
permutation of the original list, and is equal to it whenever the line was
not previously present; a previously absent list becomes the empty list. -/
theorem double_toggle_restores_up_to_order (cwd : String) (s : StoreData)
    (exe : Option String) (e source_file : String) (line : PyVal) (s1 s2 : StoreData)
    (hres : resolveExec cwd s exe = some e) (hce : canon_path cwd e = e)
    (h1 : toggle_breakpoint cwd s exe source_file line = some s1)
    (h2 : toggle_breakpoint cwd s1 exe source_file line = some s2) :
    (getLines? s e (basenameStr source_file) = none →
      getLines? s2 e (basenameStr source_file) = some []) ∧
    (∀ lines, getLines? s e (basenameStr source_file) = some lines → lines.Nodup →
      ∃ l2, getLines? s2 e (basenameStr source_file) = some l2 ∧ l2.Perm lines ∧
        (line ∉ lines → l2 = lines)) := by
  have heq1 := toggle_eq cwd s exe e source_file line hres hce
  rw [h1] at heq1
  obtain rfl := Option.some.inj heq1
  have hres2 : resolveExec cwd (toggleCore s e (basenameStr source_file) line) exe =
      some e := by
    cases exe with
    | none => exact toggleCore_lastUsed s e (basenameStr source_file) line
    | some e0 => exact hres
  have heq2 := toggle_eq cwd _ exe e source_file line hres2 hce
  rw [h2] at heq2
  obtain rfl := Option.some.inj heq2
  have hg1 := toggleCore_getLines_self s e (basenameStr source_file) line
  have hg2 := toggleCore_getLines_self (toggleCore s e (basenameStr source_file) line)
    e (basenameStr source_file) line
  rw [hg1] at hg2
  constructor
  · intro hnone
    rw [hnone] at hg2
    rw [hg2]
    simp [toggleLines]
  · intro lines hsome hnd
    rw [hsome] at hg2
    by_cases hin : line ∈ lines
    · refine ⟨(lines.erase line) ++ [line], ?_, ?_, fun hnot => absurd hin hnot⟩
      · rw [hg2]
        congr 1
        simp only [toggleLines, if_pos hin]
        rw [if_neg hnd.not_mem_erase]
      · exact (List.perm_append_singleton line (lines.erase line)).trans
          (List.perm_cons_erase hin).symm
    · refine ⟨lines, ?_, List.Perm.refl lines, fun _ => rfl⟩
      rw [hg2]
      congr 1
      simp only [toggleLines, if_neg hin]
      rw [if_pos (by simp : line ∈ lines ++ [line])]
      rw [List.erase_append_right _ hin]
      simp

/-- Witness for the amended C2 at a concrete input. -/
theorem double_toggle_restores_up_to_order_witness :
    resolveExec "/" ⟨[("/bin/a", [("a.c", [PyVal.int 10, PyVal.int 20])])], none⟩
        (some "/bin/a") = some "/bin/a" ∧
    canon_path "/" "/bin/a" = "/bin/a" ∧
    toggle_breakpoint "/" ⟨[("/bin/a", [("a.c", [PyVal.int 10, PyVal.int 20])])], none⟩
        (some "/bin/a") "a.c" (PyVal.int 10) =
      some ⟨[("/bin/a", [("a.c", [PyVal.int 20])])], some "/bin/a"⟩ ∧
    toggle_breakpoint "/" ⟨[("/bin/a", [("a.c", [PyVal.int 20])])], some "/bin/a"⟩
        (some "/bin/a") "a.c" (PyVal.int 10) =
      some ⟨[("/bin/a", [("a.c", [PyVal.int 20, PyVal.int 10])])], some "/bin/a"⟩ ∧
    ((getLines? ⟨[("/bin/a", [("a.c", [PyVal.int 10, PyVal.int 20])])], none⟩
        "/bin/a" (basenameStr "a.c") = none →
      getLines? ⟨[("/bin/a", [("a.c", [PyVal.int 20, PyVal.int 10])])], some "/bin/a"⟩
        "/bin/a" (basenameStr "a.c") = some []) ∧
    (∀ lines, getLines? ⟨[("/bin/a", [("a.c", [PyVal.int 10, PyVal.int 20])])], none⟩
        "/bin/a" (basenameStr "a.c") = some lines → lines.Nodup →
      ∃ l2, getLines? ⟨[("/bin/a", [("a.c", [PyVal.int 20, PyVal.int 10])])], some "/bin/a"⟩
          "/bin/a" (basenameStr "a.c") = some l2 ∧ l2.Perm lines ∧
        (PyVal.int 10 ∉ lines → l2 = lines))) :=
  ⟨by decide, by decide, by decide, by decide,
    double_toggle_restores_up_to_order "/"
      ⟨[("/bin/a", [("a.c", [PyVal.int 10, PyVal.int 20])])], none⟩ (some "/bin/a")
      "/bin/a" "a.c" (PyVal.int 10)
      ⟨[("/bin/a", [("a.c", [PyVal.int 20])])], some "/bin/a"⟩
      ⟨[("/bin/a", [("a.c", [PyVal.int 20, PyVal.int 10])])], some "/bin/a"⟩
      (by decide) (by decide) (by decide) (by decide)⟩

/-- Claim C10: a successful toggle leaves every other executable's entry
untouched and, under the resolved executable, every breakpoint list for a
basename other than the source file's basename untouched; the key set gains
at most the resolved executable's key, and `lastUsed` becomes the resolved
executable. -/
theorem toggle_breakpoint_frame (cwd : String) (s : StoreData) (exe : Option String)
    (e source_file : String) (line : PyVal) (s' : StoreData)
    (hres : resolveExec cwd s exe = some e) (hce : canon_path cwd e = e)
    (h : toggle_breakpoint cwd s exe source_file line = some s') :
    (∀ k, k ≠ e → s'.entries.lookup k = s.entries.lookup k) ∧
    (∀ t, t ≠ basenameStr source_file → getLines? s' e t = getLines? s e t) ∧
    (s'.entries.map Prod.fst = s.entries.map Prod.fst ∨
      s'.entries.map Prod.fst = s.entries.map Prod.fst ++ [e]) ∧
    s'.lastUsed = some e := by
  have heq := toggle_eq cwd s exe e source_file line hres hce
  rw [h] at heq
  obtain rfl := Option.some.inj heq
  exact ⟨fun k hk => toggleCore_lookup_ne s e (basenameStr source_file) line hk,
    fun t ht => toggleCore_getLines_ne s e (basenameStr source_file) line ht,
    toggleCore_keys s e (basenameStr source_file) line,
    toggleCore_lastUsed s e (basenameStr source_file) line⟩

/-- Witness for C10 at a concrete input. -/
theorem toggle_breakpoint_frame_witness :
    resolveExec "/" ⟨[("/bin/b", [("b.c", [PyVal.int 3])])], none⟩ (some "/bin/a") =
      some "/bin/a" ∧
    canon_path "/" "/bin/a" = "/bin/a" ∧
    toggle_breakpoint "/" ⟨[("/bin/b", [("b.c", [PyVal.int 3])])], none⟩
        (some "/bin/a") "a.c" (PyVal.int 1) =
      some ⟨[("/bin/b", [("b.c", [PyVal.int 3])]), ("/bin/a", [("a.c", [PyVal.int 1])])],
        some "/bin/a"⟩ ∧
    ((∀ k, k ≠ "/bin/a" →
      (⟨[("/bin/b", [("b.c", [PyVal.int 3])]), ("/bin/a", [("a.c", [PyVal.int 1])])],
        some "/bin/a"⟩ : StoreData).entries.lookup k =
        (⟨[("/bin/b", [("b.c", [PyVal.int 3])])], none⟩ : StoreData).entries.lookup k) ∧
    (∀ t, t ≠ basenameStr "a.c" →
      getLines? ⟨[("/bin/b", [("b.c", [PyVal.int 3])]), ("/bin/a", [("a.c", [PyVal.int 1])])],
        some "/bin/a"⟩ "/bin/a" t =
        getLines? ⟨[("/bin/b", [("b.c", [PyVal.int 3])])], none⟩ "/bin/a" t) ∧
    ((⟨[("/bin/b", [("b.c", [PyVal.int 3])]), ("/bin/a", [("a.c", [PyVal.int 1])])],
        some "/bin/a"⟩ : StoreData).entries.map Prod.fst =
        (⟨[("/bin/b", [("b.c", [PyVal.int 3])])], none⟩ : StoreData).entries.map Prod.fst ∨
      (⟨[("/bin/b", [("b.c", [PyVal.int 3])]), ("/bin/a", [("a.c", [PyVal.int 1])])],
        some "/bin/a"⟩ : StoreData).entries.map Prod.fst =
        (⟨[("/bin/b", [("b.c", [PyVal.int 3])])], none⟩ : StoreData).entries.map Prod.fst
          ++ ["/bin/a"]) ∧
    (⟨[("/bin/b", [("b.c", [PyVal.int 3])]), ("/bin/a", [("a.c", [PyVal.int 1])])],
      some "/bin/a"⟩ : StoreData).lastUsed = some "/bin/a") :=
  ⟨by decide, by decide, by decide,
    toggle_breakpoint_frame "/" ⟨[("/bin/b", [("b.c", [PyVal.int 3])])], none⟩
      (some "/bin/a") "/bin/a" "a.c" (PyVal.int 1)
      ⟨[("/bin/b", [("b.c", [PyVal.int 3])]), ("/bin/a", [("a.c", [PyVal.int 1])])],
        some "/bin/a"⟩
      (by decide) (by decide) (by decide)⟩

/-- Claim C5: `set_last_used` followed by `get_last_used` returns the
canonicalized form of the input path — which is absolute and a fixed point of
canonicalization (normalized) — for every store and every input path. -/
theorem set_get_last_used_canonical (cwd : String) (s : StoreData) (p : String)
    (hcwd : isAbsChars cwd.data = true) :
    get_last_used (set_last_used cwd s p) = some (canon_path cwd p) ∧
    isAbsChars (canon_path cwd p).data = true ∧
    canon_path cwd (canon_path cwd p) = canon_path cwd p :=
  ⟨rfl, isAbs_canon_path hcwd p, canon_path_idem hcwd p⟩

/-- Witness for C5 at a concrete relative path containing dot-dot segments. -/
theorem set_get_last_used_canonical_witness :
    isAbsChars "/home/u".data = true ∧
    (get_last_used (set_last_used "/home/u" ⟨[], none⟩ "../etc/./passwd") =
      some (canon_path "/home/u" "../etc/./passwd") ∧
    isAbsChars (canon_path "/home/u" "../etc/./passwd").data = true ∧
    canon_path "/home/u" (canon_path "/home/u" "../etc/./passwd") =
      canon_path "/home/u" "../etc/./passwd") ∧
    canon_path "/home/u" "../etc/./passwd" = "/home/etc/passwd" :=
  ⟨by decide, set_get_last_used_canonical "/home/u" ⟨[], none⟩ "../etc/./passwd"
    (by decide), by decide⟩

/-- Claim C4: for every executable key whose path exists on disk and whose
breakpoints are `{"a.c": [10, 20]}`, `export_commands` writes a script whose
content is exactly the three lines `file <path>`,
`breakpoint set --file a.c --line 10`, `breakpoint set --file a.c --line 20`
joined by single newlines, one breakpoint-set line per recorded pair in
stored order. -/
theorem export_commands_content (isfile : String → Bool) (dbg_directory : String)
    (s : StoreData) (path : String)
    (hmem : (path, [("a.c", [PyVal.int 10, PyVal.int 20])]) ∈ s.entries)
    (hfile : isfile path = true) :
    (joinStr dbg_directory (raw_name path ++ ".lldb"),
      "file " ++ path ++ "\nbreakpoint set --file a.c --line 10\nbreakpoint set --file a.c --line 20") ∈
      export_commands isfile dbg_directory s := by
  have hmem2 : (path, [("a.c", [PyVal.int 10, PyVal.int 20])]) ∈
      s.entries.filter (fun kv => isfile kv.1) :=
    List.mem_filter.mpr ⟨hmem, by simpa using hfile⟩
  have hmap := List.mem_map_of_mem
    (fun kv : String × Breakpoints =>
      (joinStr dbg_directory (raw_name kv.1 ++ ".lldb"), joinNL (exportLines kv.1 kv.2)))
    hmem2
  have hcontent : joinNL (exportLines path [("a.c", [PyVal.int 10, PyVal.int 20])]) =
      "file " ++ path ++ "\nbreakpoint set --file a.c --line 10\nbreakpoint set --file a.c --line 20" := by
    show ("file " ++ path) ++ "\n" ++
      joinNL ["breakpoint set --file " ++ "a.c" ++ " --line " ++ pyFormat (PyVal.int 10),
        "breakpoint set --file " ++ "a.c" ++ " --line " ++ pyFormat (PyVal.int 20)] = _
    rw [show joinNL ["breakpoint set --file " ++ "a.c" ++ " --line " ++ pyFormat (PyVal.int 10),
        "breakpoint set --file " ++ "a.c" ++ " --line " ++ pyFormat (PyVal.int 20)] =
      "breakpoint set --file a.c --line 10\nbreakpoint set --file a.c --line 20" from by decide]
    rw [String.append_assoc]
    rw [show ("\n" : String) ++ "breakpoint set --file a.c --line 10\nbreakpoint set --file a.c --line 20" =
      "\nbreakpoint set --file a.c --line 10\nbreakpoint set --file a.c --line 20" from by decide]
  rw [← hcontent]
  exact hmap

/-- Witness for C4 at a concrete store. -/
theorem export_commands_content_witness :
    ("/bin/a", [("a.c", [PyVal.int 10, PyVal.int 20])]) ∈
      (⟨[("/bin/a", [("a.c", [PyVal.int 10, PyVal.int 20])])], none⟩ : StoreData).entries ∧
    (fun _ : String => true) "/bin/a" = true ∧
    (joinStr ".dbg" (raw_name "/bin/a" ++ ".lldb"),
      "file " ++ "/bin/a" ++ "\nbreakpoint set --file a.c --line 10\nbreakpoint set --file a.c --line 20") ∈
      export_commands (fun _ => true) ".dbg"
        ⟨[("/bin/a", [("a.c", [PyVal.int 10, PyVal.int 20])])], none⟩ :=
  ⟨by decide, rfl,
    export_commands_content (fun _ => true) ".dbg"
      ⟨[("/bin/a", [("a.c", [PyVal.int 10, PyVal.int 20])])], none⟩ "/bin/a"
      (by decide) rfl⟩

/-- Claim C6: `save` followed by `load` round-trips the store: the JSON
document written by `save` decodes to a store with the same executable →
breakpoints mapping and the same last-used value, for every store whose
entry keys do not collide with the `LASTUSED` sibling key (the program only
creates absolute-path keys, so the quirk never fires). -/
theorem load_save_roundtrip (s : StoreData)
    (hlu : "LASTUSED" ∉ s.entries.map Prod.fst) :
    load (save s) = some s := by
  show decodeFields _ ⟨[], none⟩ = some s
  rw [decodeFields_entries s.entries _ ⟨[], none⟩
    (fun k hk => fun he => hlu (he ▸ hk))]
  cases s with
  | mk entries lastUsed =>
    cases lastUsed with
    | none => simp [decodeFields]
    | some l => simp [decodeFields]

/-- Witness for C6 at a concrete store. -/
theorem load_save_roundtrip_witness :
    "LASTUSED" ∉
      (⟨[("/bin/a", [("a.c", [PyVal.int 10, PyVal.str "x"])])], some "/bin/a"⟩ :
        StoreData).entries.map Prod.fst ∧
    load (save ⟨[("/bin/a", [("a.c", [PyVal.int 10, PyVal.str "x"])])], some "/bin/a"⟩) =
      some ⟨[("/bin/a", [("a.c", [PyVal.int 10, PyVal.str "x"])])], some "/bin/a"⟩ :=
  ⟨by decide,
    load_save_roundtrip
      ⟨[("/bin/a", [("a.c", [PyVal.int 10, PyVal.str "x"])])], some "/bin/a"⟩
      (by decide)⟩

/-- Counterexample to C7 as stated: the command line delivers `LINE` as a
string (argparse has no `type=int`), so the `break` path records the string
value `"10"`, not an integer. -/
theorem cli_break_line_not_int :
    cli_break "/" ⟨[], none⟩ (some "/bin/foo") "a.c" "10" =
      some ⟨[("/bin/foo", [("a.c", [PyVal.str "10"])])], some "/bin/foo"⟩ ∧
    getLines? ⟨[("/bin/foo", [("a.c", [PyVal.str "10"])])], some "/bin/foo"⟩
        "/bin/foo" "a.c" = some [PyVal.str "10"] ∧
    PyVal.isInt (PyVal.str "10") = false :=
  ⟨by decide, by decide, rfl⟩

/-- Claim C7 (amended): every value stored through the command-line `break`
path is the literal line string as typed on the command line (a string, not
an integer): toggling records exactly `PyVal.str line`. -/
theorem cli_break_stores_string (cwd : String) (s : StoreData) (exe : Option String)
    (e source_file line : String)
    (hres : resolveExec cwd s exe = some e) (hce : canon_path cwd e = e) :
    ∃ s', cli_break cwd s exe source_file line = some s' ∧
      getLines? s' e (basenameStr source_file) =
        some (toggleLines (getLines? s e (basenameStr source_file)) (PyVal.str line)) ∧
      (getLines? s e (basenameStr source_file) = none →
        getLines? s' e (basenameStr source_file) = some [PyVal.str line]) := by
  refine ⟨toggleCore s e (basenameStr source_file) (PyVal.str line),
    toggle_eq cwd s exe e source_file (PyVal.str line) hres hce,
    toggleCore_getLines_self s e (basenameStr source_file) (PyVal.str line), ?_⟩
  intro hnone
  rw [toggleCore_getLines_self, hnone]
  rfl

/-- Witness for the amended C7 at a concrete input. -/
theorem cli_break_stores_string_witness :
    resolveExec "/" ⟨[], none⟩ (some "/bin/foo") = some "/bin/foo" ∧
    canon_path "/" "/bin/foo" = "/bin/foo" ∧
    (∃ s', cli_break "/" ⟨[], none⟩ (some "/bin/foo") "a.c" "10" = some s' ∧
      getLines? s' "/bin/foo" (basenameStr "a.c") =
        some (toggleLines (getLines? ⟨[], none⟩ "/bin/foo" (basenameStr "a.c"))
          (PyVal.str "10")) ∧
      (getLines? ⟨[], none⟩ "/bin/foo" (basenameStr "a.c") = none →
        getLines? s' "/bin/foo" (basenameStr "a.c") = some [PyVal.str "10"])) :=
  ⟨by decide, by decide,
    cli_break_stores_string "/" ⟨[], none⟩ (some "/bin/foo") "/bin/foo" "a.c" "10"
      (by decide) (by decide)⟩

/-- Counterexample to C8 as stated: after `touch /bin/bar` on an empty store,
`print` silently no-ops (header only, no breakpoint lines) while `clean` on
the same store is a fatal lookup failure — the two operations do not follow
one consistent policy. -/
theorem print_clean_policy_differs :
    set_last_used "/" ⟨[], none⟩ "/bin/bar" = ⟨[], some "/bin/bar"⟩ ∧
    print_breakpoints ⟨[], some "/bin/bar"⟩ none =
      some ["Executable: bar", "---------------"] ∧
    clean_breakpoints "/" ⟨[], some "/bin/bar"⟩ none = none :=
  ⟨by decide, by decide, by decide⟩

/-- Claim C8 (amended): on an executable with no entry, `print_breakpoints`
silently prints only the two header lines (`Executable: <basename>` and the
dash rule) while `clean_breakpoints` propagates a fatal lookup failure; in
particular the `touch /bin/bar` then `print` scenario prints the header
`Executable: bar` and no breakpoint lines. -/
theorem print_noop_clean_fatal (cwd : String) (s : StoreData) (e : String)
    (hres : s.lastUsed = some e) (hkey : s.entries.lookup e = none) :
    print_breakpoints s none =
      some ["Executable: " ++ basenameStr e,
        String.mk (List.replicate ("Executable: " ++ basenameStr e).length '-')] ∧
    clean_breakpoints cwd s none = none := by
  constructor
  · unfold print_breakpoints
    simp only [hres, hkey]
  · unfold clean_breakpoints
    simp only [hres, hkey]

/-- Witness for the amended C8: the `touch /bin/bar` scenario. -/
theorem print_noop_clean_fatal_witness :
    (⟨[], some "/bin/bar"⟩ : StoreData).lastUsed = some "/bin/bar" ∧
    (⟨[], some "/bin/bar"⟩ : StoreData).entries.lookup "/bin/bar" = none ∧
    (print_breakpoints ⟨[], some "/bin/bar"⟩ none =
      some ["Executable: " ++ basenameStr "/bin/bar",
        String.mk (List.replicate ("Executable: " ++ basenameStr "/bin/bar").length '-')] ∧
    clean_breakpoints "/" ⟨[], some "/bin/bar"⟩ none = none) :=
  ⟨rfl, rfl, print_noop_clean_fatal "/" ⟨[], some "/bin/bar"⟩ "/bin/bar" rfl rfl⟩

/-- Claim C9: starting from a store whose entry keys are canonical
(fixed points of canonicalization), every operation — `add_executable`,
`set_last_used`, a successful `toggle_breakpoint`, a successful
`clean_breakpoints` — yields a store whose entry keys are still canonical,
since keys are only inserted after canonicalization. -/
theorem entries_keys_canonical_preserved (cwd : String) (s : StoreData)
    (f p source_file : String) (exe : Option String) (line : PyVal) (s1 s2 : StoreData)
    (hcwd : isAbsChars cwd.data = true) (hI : canonicalKeys cwd s)
    (h1 : toggle_breakpoint cwd s exe source_file line = some s1)
    (h2 : clean_breakpoints cwd s exe = some s2) :
    canonicalKeys cwd (add_executable cwd s f) ∧
    canonicalKeys cwd (set_last_used cwd s p) ∧
    canonicalKeys cwd s1 ∧ canonicalKeys cwd s2 :=
  ⟨add_executable_canonicalKeys cwd hcwd hI f,
    set_last_used_canonicalKeys cwd hI p,
    toggle_canonicalKeys cwd hcwd hI h1,
    clean_canonicalKeys cwd hcwd hI h2⟩

/-- Witness for C9 at a concrete input. -/
theorem entries_keys_canonical_preserved_witness :
    isAbsChars "/".data = true ∧
    canonicalKeys "/" ⟨[("/a", [("a.c", [PyVal.int 1])])], none⟩ ∧
    toggle_breakpoint "/" ⟨[("/a", [("a.c", [PyVal.int 1])])], none⟩ (some "/a")
        "a.c" (PyVal.int 1) = some ⟨[("/a", [("a.c", [])])], some "/a"⟩ ∧
    clean_breakpoints "/" ⟨[("/a", [("a.c", [PyVal.int 1])])], none⟩ (some "/a") =
      some ⟨[("/a", [("a.c", [])])], some "/a"⟩ ∧
    (canonicalKeys "/" (add_executable "/" ⟨[("/a", [("a.c", [PyVal.int 1])])], none⟩ "b") ∧
    canonicalKeys "/" (set_last_used "/" ⟨[("/a", [("a.c", [PyVal.int 1])])], none⟩ "c") ∧
    canonicalKeys "/" ⟨[("/a", [("a.c", [])])], some "/a"⟩ ∧
    canonicalKeys "/" ⟨[("/a", [("a.c", [])])], some "/a"⟩) :=
  ⟨by decide, by unfold canonicalKeys; decide, by decide, by decide,
    entries_keys_canonical_preserved "/" ⟨[("/a", [("a.c", [PyVal.int 1])])], none⟩
      "b" "c" "a.c" (some "/a") (PyVal.int 1)
      ⟨[("/a", [("a.c", [])])], some "/a"⟩ ⟨[("/a", [("a.c", [])])], some "/a"⟩
      (by decide) (by unfold canonicalKeys; decide) (by decide) (by decide)⟩

/-- Claim C3: for every store and every executable that resolves (explicitly
or via last-used) to a canonical key present in `entries`,
`clean_breakpoints` — which re-toggles every currently-set breakpoint in
reverse order on the live lists — succeeds and leaves every source file's
breakpoint list for that executable empty. -/
theorem clean_breakpoints_empties (cwd : String) (s : StoreData) (exe : Option String)
    (e : String) (bps : Breakpoints)
    (hres : (match exe with | none => s.lastUsed | some x => some x) = some e)
    (hce : canon_path cwd e = e)
    (hkey : s.entries.lookup e = some bps)
    (hbase : ∀ kv ∈ bps, basenameStr kv.1 = kv.1) :
    ∃ s', clean_breakpoints cwd s exe = some s' ∧
      (∀ sf lines, getLines? s' e sf = some lines → lines = []) ∧
      (∀ sf ∈ bps.map Prod.fst, getLines? s' e sf = some []) := by
  have hex : ∀ sf ∈ bps.map Prod.fst, ∃ ls, getLines? s e sf = some ls := by
    intro sf hsf
    have hsm : (bps.lookup sf).isSome = true := lookup_isSome_iff.mpr hsf
    obtain ⟨ls, hls⟩ := Option.isSome_iff_exists.mp hsm
    refine ⟨ls, ?_⟩
    unfold getLines?
    rw [hkey]
    simpa using hls
  have hbase2 : ∀ sf ∈ bps.map Prod.fst, basenameStr sf = sf := by
    intro sf hsf
    obtain ⟨kv, hkv, hfst⟩ := List.mem_map.mp hsf
    rw [← hfst]
    exact hbase kv hkv
  obtain ⟨s', hs', hempty, hft, _⟩ :=
    cleanOuter_spec cwd e hce (bps.map Prod.fst) s hbase2 hex
  refine ⟨s', ?_, ?_, hempty⟩
  · unfold clean_breakpoints
    simp only [hres, hkey]
    exact hs'
  · intro sf lines hlines
    by_cases hsf : sf ∈ bps.map Prod.fst
    · rw [hempty sf hsf] at hlines
      exact (Option.some.inj hlines).symm
    · rw [hft sf hsf] at hlines
      unfold getLines? at hlines
      rw [hkey] at hlines
      simp only [Option.some_bind] at hlines
      exact absurd (lookup_isSome_iff.mp (by rw [hlines]; rfl)) hsf

/-- Witness for C3 at a concrete input with two source files. -/
theorem clean_breakpoints_empties_witness :
    (match (some "/a" : Option String) with
      | none => (⟨[("/a", [("a.c", [PyVal.int 1, PyVal.int 2]), ("b.c", [PyVal.int 5])])],
          none⟩ : StoreData).lastUsed
      | some x => some x) = some "/a" ∧
    canon_path "/" "/a" = "/a" ∧
    (⟨[("/a", [("a.c", [PyVal.int 1, PyVal.int 2]), ("b.c", [PyVal.int 5])])], none⟩ :
      StoreData).entries.lookup "/a" =
        some [("a.c", [PyVal.int 1, PyVal.int 2]), ("b.c", [PyVal.int 5])] ∧
    (∀ kv ∈ [("a.c", [PyVal.int 1, PyVal.int 2]), ("b.c", [PyVal.int 5])],
      basenameStr kv.1 = kv.1) ∧
    (∃ s', clean_breakpoints "/"
        ⟨[("/a", [("a.c", [PyVal.int 1, PyVal.int 2]), ("b.c", [PyVal.int 5])])], none⟩
        (some "/a") = some s' ∧
      (∀ sf lines, getLines? s' "/a" sf = some lines → lines = []) ∧
      (∀ sf ∈ ([("a.c", [PyVal.int 1, PyVal.int 2]), ("b.c", [PyVal.int 5])] :
          Breakpoints).map Prod.fst, getLines? s' "/a" sf = some [])) :=
  ⟨rfl, by decide, by decide, by decide,
    clean_breakpoints_empties "/"
      ⟨[("/a", [("a.c", [PyVal.int 1, PyVal.int 2]), ("b.c", [PyVal.int 5])])], none⟩
      (some "/a") "/a" [("a.c", [PyVal.int 1, PyVal.int 2]), ("b.c", [PyVal.int 5])]
      rfl (by decide) (by decide) (by decide)⟩
